import Mathlib

/-!
Verification of the subauto batch subtitle pipeline.

This file gives a shallow embedding of the orchestration core of the
subauto repository (src/subauto/cli.py and src/subauto/utils/utils.py):
the subtitle codec (format_timestamp, json_to_srt, srt_to_json), the
batch translator chunking loop, the per-video pipeline
(process_single_video), the dispatcher worker-count computation and the
progress-aggregator event loop (process_videos_concurrently).

Python strings are modelled as lists of characters, Python floats as
rationals, fallible operations as Option/Except values, and the external
collaborators (the Gemini translation backend, whisper, ffmpeg and the
third-party srt parsing library) as explicit functional parameters.
-/

namespace Subauto

/-! ## Python string primitives -/

/-- Characters treated as whitespace by Python str.strip. -/
def isPySpace (c : Char) : Bool :=
  c = ' ' || c = '\t' || c = '\n' || c = '\r' || c = '\x0b' || c = '\x0c'

/-- Python str.lstrip with no arguments. -/
def pyLstrip (l : List Char) : List Char :=
  l.dropWhile isPySpace

/-- Python str.strip with no arguments. -/
def pyStrip (l : List Char) : List Char :=
  ((l.dropWhile isPySpace).reverse.dropWhile isPySpace).reverse

/-- Python replace of every newline by a space, as in srt_to_json. -/
def replaceNL (l : List Char) : List Char :=
  l.map (fun c => if c = '\n' then ' ' else c)

/-- Split a list at every occurrence of a separator element; the
separators are dropped and the (possibly empty) fragments returned in
order. Mirrors Python str.split on a one-element separator. -/
def splitOnSep {α : Type} [DecidableEq α] (sep : α) : List α → List (List α)
  | [] => [[]]
  | x :: xs =>
    if x = sep then [] :: splitOnSep sep xs
    else
      match splitOnSep sep xs with
      | [] => [[x]]
      | g :: gs => (x :: g) :: gs

/-- Join fragments putting a separator element between them; inverse of
splitOnSep. Mirrors Python sep.join. -/
def joinWith {α : Type} (sep : α) : List (List α) → List α
  | [] => []
  | [a] => a
  | a :: b :: rest => a ++ sep :: joinWith sep (b :: rest)

theorem splitOnSep_ne_nil {α : Type} [DecidableEq α] (sep : α) (l : List α) :
    splitOnSep sep l ≠ [] := by
  cases l with
  | nil => simp [splitOnSep]
  | cons x xs =>
    simp only [splitOnSep]
    split
    · simp
    · split <;> simp

theorem splitOnSep_cons_sep {α : Type} [DecidableEq α] (sep : α) (l : List α) :
    splitOnSep sep (sep :: l) = [] :: splitOnSep sep l := by
  simp [splitOnSep]

theorem splitOnSep_sepFree {α : Type} [DecidableEq α] {sep : α} {a : List α}
    (h : sep ∉ a) : splitOnSep sep a = [a] := by
  induction a with
  | nil => rfl
  | cons x xs ih =>
    simp only [List.mem_cons, not_or] at h
    have hx : x ≠ sep := fun he => h.1 he.symm
    simp only [splitOnSep, if_neg hx, ih h.2]

theorem splitOnSep_append_sep {α : Type} [DecidableEq α] {sep : α} {a : List α}
    (h : sep ∉ a) (l : List α) :
    splitOnSep sep (a ++ sep :: l) = a :: splitOnSep sep l := by
  induction a with
  | nil => simp [splitOnSep_cons_sep]
  | cons x xs ih =>
    simp only [List.mem_cons, not_or] at h
    have hx : x ≠ sep := fun he => h.1 he.symm
    simp only [List.cons_append, splitOnSep, if_neg hx, List.append_eq]
    rw [ih h.2]

theorem joinWith_splitOnSep {α : Type} [DecidableEq α] (sep : α) (l : List α) :
    joinWith sep (splitOnSep sep l) = l := by
  induction l with
  | nil => rfl
  | cons x xs ih =>
    simp only [splitOnSep]
    by_cases hx : x = sep
    · rw [if_pos hx]
      obtain ⟨g, gs, hg⟩ : ∃ g gs, splitOnSep sep xs = g :: gs := by
        cases h : splitOnSep sep xs with
        | nil => exact absurd h (splitOnSep_ne_nil sep xs)
        | cons g gs => exact ⟨g, gs, rfl⟩
      rw [hg] at ih ⊢
      simpa [joinWith, hx] using ih
    · rw [if_neg hx]
      cases h : splitOnSep sep xs with
      | nil => exact absurd h (splitOnSep_ne_nil sep xs)
      | cons g gs =>
        rw [h] at ih
        cases gs with
        | nil => simpa [joinWith] using ih
        | cons g2 gs2 => simpa [joinWith] using ih

/-- Splitting a joined list of separator-free nonempty fragments followed
by a separator and a tail recovers the fragments. -/
theorem splitOnSep_joinWith_append {α : Type} [DecidableEq α] {sep : α}
    {ls : List (List α)} (hne : ls ≠ []) (hfree : ∀ a ∈ ls, sep ∉ a)
    (l : List α) :
    splitOnSep sep (joinWith sep ls ++ sep :: l) = ls ++ splitOnSep sep l := by
  induction ls with
  | nil => exact absurd rfl hne
  | cons a rest ih =>
    cases rest with
    | nil =>
      simp only [joinWith]
      rw [splitOnSep_append_sep (hfree a (by simp)) l]
      rfl
    | cons b rest2 =>
      have h1 : joinWith sep (a :: b :: rest2) = a ++ sep :: joinWith sep (b :: rest2) := rfl
      rw [h1, List.append_assoc, List.cons_append,
        splitOnSep_append_sep (hfree a (by simp)) _]
      rw [ih (by simp) (fun x hx => hfree x (List.mem_cons_of_mem a hx))]
      rfl

theorem pyStrip_ne_nil {l : List Char} {c : Char} (hc : c ∈ l)
    (hns : isPySpace c = false) : pyStrip l ≠ [] := by
  intro h
  unfold pyStrip at h
  rw [List.reverse_eq_nil_iff, List.dropWhile_eq_nil_iff] at h
  have hall : ∀ x ∈ l, isPySpace x = true := by
    intro x hx
    rw [← List.takeWhile_append_dropWhile (p := isPySpace) (l := l)] at hx
    rcases List.mem_append.mp hx with h1 | h2
    · exact List.mem_takeWhile_imp h1
    · exact h x (by simpa using h2)
  rw [hall c hc] at hns
  exact absurd hns (by simp)

/-! ## Decimal digits and numeral rendering -/

/-- The decimal digit characters. -/
def digitChar : Nat → Char
  | 0 => '0' | 1 => '1' | 2 => '2' | 3 => '3' | 4 => '4'
  | 5 => '5' | 6 => '6' | 7 => '7' | 8 => '8' | _ => '9'

/-- Little-endian decimal digits of a natural number. The first argument
is recursion fuel; any fuel at least n computes the digits of n. -/
def natDigitsRevAux : Nat → Nat → List Nat
  | _, 0 => []
  | 0, _+1 => []
  | f+1, n+1 => ((n+1) % 10) :: natDigitsRevAux f ((n+1) / 10)

/-- Decimal representation of a natural number, as Python str of an int. -/
def natRepr (n : Nat) : List Char :=
  if n = 0 then ['0'] else (natDigitsRevAux n n).reverse.map digitChar

/-- Zero padding to a given width, modelling Python format specs 02d and
03d used in format_timestamp. -/
def padZero (w : Nat) (s : List Char) : List Char :=
  List.replicate (w - s.length) '0' ++ s

/-- Parse a nonempty all-digit string as a natural number. -/
def parseNat (l : List Char) : Option Nat :=
  if l = [] then none
  else if l.all Char.isDigit then
    some (l.foldl (fun acc c => 10 * acc + (c.toNat - 48)) 0)
  else none

/-- Little-endian value of a digit list. -/
def valLE : List Nat → Nat
  | [] => 0
  | d :: t => d + 10 * valLE t

theorem natDigitsRevAux_val : ∀ f n, n ≤ f → valLE (natDigitsRevAux f n) = n := by
  intro f
  induction f with
  | zero => intro n hn; interval_cases n; rfl
  | succ f ih =>
    intro n hn
    match n with
    | 0 => rfl
    | m + 1 =>
      have hd : (m + 1) / 10 ≤ f := by omega
      have := ih ((m + 1) / 10) hd
      simp only [natDigitsRevAux, valLE, this]
      omega

theorem natDigitsRevAux_lt : ∀ f n d, d ∈ natDigitsRevAux f n → d < 10 := by
  intro f
  induction f with
  | zero =>
    intro n d hd
    match n with
    | 0 => simp [natDigitsRevAux] at hd
    | m + 1 => simp [natDigitsRevAux] at hd
  | succ f ih =>
    intro n d hd
    match n with
    | 0 => simp [natDigitsRevAux] at hd
    | m + 1 =>
      simp only [natDigitsRevAux, List.mem_cons] at hd
      rcases hd with h | h
      · omega
      · exact ih _ d h

theorem natDigitsRevAux_ne_nil (f n : Nat) (h0 : n ≠ 0) (hf : n ≤ f) :
    natDigitsRevAux f n ≠ [] := by
  match f, n with
  | _, 0 => exact absurd rfl h0
  | 0, m + 1 => omega
  | f + 1, m + 1 => simp [natDigitsRevAux]

theorem digitChar_isDigit (d : Nat) : (digitChar d).isDigit = true := by
  unfold digitChar
  split <;> decide

theorem digitChar_toNat (d : Nat) (h : d < 10) : (digitChar d).toNat - 48 = d := by
  interval_cases d <;> decide

theorem isDigit_not_special {c : Char} (h : c.isDigit = true) :
    c ≠ ':' ∧ c ≠ ',' ∧ c ≠ ' ' ∧ c ≠ '\n' ∧ isPySpace c = false := by
  simp only [Char.isDigit, decide_eq_true_eq] at h
  refine ⟨?_, ?_, ?_, ?_, ?_⟩ <;>
    first
      | (intro hc; subst hc; revert h; decide)
      | (simp only [isPySpace]
         have h1 : c ≠ ' ' := fun hc => by subst hc; revert h; decide
         have h2 : c ≠ '\t' := fun hc => by subst hc; revert h; decide
         have h3 : c ≠ '\n' := fun hc => by subst hc; revert h; decide
         have h4 : c ≠ '\r' := fun hc => by subst hc; revert h; decide
         have h5 : c ≠ '\x0b' := fun hc => by subst hc; revert h; decide
         have h6 : c ≠ '\x0c' := fun hc => by subst hc; revert h; decide
         simp [h1, h2, h3, h4, h5, h6])

theorem foldl_digits (ds : List Nat) (acc : Nat) (h : ∀ d ∈ ds, d < 10) :
    List.foldl (fun a c => 10 * a + (c.toNat - 48)) acc (ds.reverse.map digitChar) =
      acc * 10 ^ ds.length + valLE ds := by
  induction ds generalizing acc with
  | nil => simp [valLE]
  | cons d t ih =>
    simp only [List.reverse_cons, List.map_append, List.map_cons, List.map_nil,
      List.foldl_append, List.foldl_cons, List.foldl_nil]
    rw [ih acc (fun x hx => h x (List.mem_cons_of_mem d hx))]
    rw [digitChar_toNat d (h d (List.mem_cons_self d t))]
    simp only [valLE, List.length_cons, pow_succ]
    ring

theorem natRepr_ne_nil (n : Nat) : natRepr n ≠ [] := by
  unfold natRepr
  split
  · simp
  · next h =>
    simp only [ne_eq, List.map_eq_nil_iff, List.reverse_eq_nil_iff]
    exact natDigitsRevAux_ne_nil n n h le_rfl

theorem natRepr_all_digits (n : Nat) : ∀ c ∈ natRepr n, c.isDigit = true := by
  intro c hc
  unfold natRepr at hc
  split at hc
  · simp only [List.mem_singleton] at hc
    subst hc; decide
  · simp only [List.mem_map] at hc
    obtain ⟨d, _, rfl⟩ := hc
    exact digitChar_isDigit d

theorem parseNat_natRepr (n : Nat) : parseNat (natRepr n) = some n := by
  by_cases h0 : n = 0
  · subst h0; decide
  · unfold parseNat
    rw [if_neg (natRepr_ne_nil n)]
    rw [if_pos (by simpa [List.all_eq_true] using natRepr_all_digits n)]
    unfold natRepr
    rw [if_neg h0]
    rw [foldl_digits _ 0 (fun d hd => natDigitsRevAux_lt n n d hd)]
    rw [natDigitsRevAux_val n n le_rfl]
    simp

theorem parseNat_padZero (w n : Nat) : parseNat (padZero w (natRepr n)) = some n := by
  unfold padZero parseNat
  rw [if_neg (by simp [natRepr_ne_nil n])]
  rw [if_pos ?_]
  · have hz : ∀ k, List.foldl (fun a c => 10 * a + (c.toNat - 48)) 0
        (List.replicate k '0') = 0 := by
      intro k
      induction k with
      | zero => rfl
      | succ k ih => simpa [List.replicate_succ] using ih
    rw [List.foldl_append, hz]
    have := parseNat_natRepr n
    unfold parseNat at this
    rw [if_neg (natRepr_ne_nil n),
      if_pos (by simpa [List.all_eq_true] using natRepr_all_digits n)] at this
    simpa using this
  · simp only [List.all_append, Bool.and_eq_true, List.all_eq_true]
    constructor
    · intro c hc
      rw [List.eq_of_mem_replicate hc]; decide
    · exact fun c hc => natRepr_all_digits n c hc

/-! ## Python numeric primitives: floor, round, divmod -/

/-- Floor of a rational, computed from its reduced fraction. -/
def pyFloor (q : ℚ) : ℤ := q.num.fdiv q.den

/-- Python round() to the nearest integer, ties to even (used by
format_timestamp through int(round(seconds * 1000))). -/
def pyRound (q : ℚ) : ℤ :=
  let f := pyFloor q
  let r := q - (f : ℚ)
  if r < 1 / 2 then f
  else if 1 / 2 < r then f + 1
  else if f % 2 = 0 then f else f + 1

theorem pyFloor_intCast (k : ℤ) : pyFloor (k : ℚ) = k := by
  unfold pyFloor
  simp [Rat.num_intCast, Rat.den_intCast]

theorem pyRound_intCast (k : ℤ) : pyRound (k : ℚ) = k := by
  unfold pyRound
  rw [pyFloor_intCast]
  rw [if_pos (by norm_num)]

/-! ## Timestamp formatting (utils.format_timestamp) -/

/-- Core rendering of format_timestamp after its type and sign checks:
divmod chains on int(round(seconds * 1000)) and zero-padded rendering
HH:MM:SS,mmm. Python divmod is floor division and floor modulo, modelled
with Int.fdiv and Int.fmod; all intermediate values are nonnegative for
nonnegative input, so rendering goes through Int.toNat. -/
def formatTimestampChars (seconds : ℚ) : List Char :=
  let milliseconds : ℤ := pyRound (seconds * 1000)
  let secs : ℤ := milliseconds.fdiv 1000
  let ms : ℤ := milliseconds.fmod 1000
  let minutes : ℤ := secs.fdiv 60
  let s : ℤ := secs.fmod 60
  let hours : ℤ := minutes.fdiv 60
  let m : ℤ := minutes.fmod 60
  padZero 2 (natRepr hours.toNat) ++
    (':' :: (padZero 2 (natRepr m.toNat) ++
      (':' :: (padZero 2 (natRepr s.toNat) ++
        (',' :: padZero 3 (natRepr ms.toNat))))))

/-- A dynamically typed Python value, as may be passed to format_timestamp. -/
inductive PyVal where
  | num (q : ℚ)
  | str (s : List Char)
  | pyNone
  | pyList (elems : List PyVal)

/-- The Python exception classes raised by format_timestamp. -/
inductive PyError where
  | typeError
  | valueError
deriving DecidableEq

/-- Whether a PyVal passes the isinstance(seconds, (int, float)) check. -/
def isNumeric : PyVal → Bool
  | PyVal.num _ => true
  | _ => false

/-- utils.format_timestamp: TypeError on non-numeric input, ValueError on
negative numeric input, otherwise the HH:MM:SS,mmm rendering. -/
def format_timestamp : PyVal → Except PyError (List Char)
  | PyVal.num q =>
    if q < 0 then Except.error PyError.valueError
    else Except.ok (formatTimestampChars q)
  | _ => Except.error PyError.typeError

/-- Closed form of the rendering on any input whose value in milliseconds
is a nonnegative integer k. -/
theorem formatTimestampChars_eq (q : ℚ) (k : ℕ) (h : q * 1000 = (k : ℚ)) :
    formatTimestampChars q =
      padZero 2 (natRepr (k / 1000 / 60 / 60)) ++
        (':' :: (padZero 2 (natRepr (k / 1000 / 60 % 60)) ++
          (':' :: (padZero 2 (natRepr (k / 1000 % 60)) ++
            (',' :: padZero 3 (natRepr (k % 1000))))))) := by
  unfold formatTimestampChars
  have hk : q * 1000 = ((k : ℤ) : ℚ) := by rw [h]; norm_num
  rw [hk, pyRound_intCast]
  have f1 : ∀ a : ℤ, a.fdiv 1000 = a / 1000 := fun a => Int.fdiv_eq_ediv a (by norm_num)
  have f2 : ∀ a : ℤ, a.fmod 1000 = a % 1000 := fun a => Int.fmod_eq_emod a (by norm_num)
  have f3 : ∀ a : ℤ, a.fdiv 60 = a / 60 := fun a => Int.fdiv_eq_ediv a (by norm_num)
  have f4 : ∀ a : ℤ, a.fmod 60 = a % 60 := fun a => Int.fmod_eq_emod a (by norm_num)
  simp only [f1, f2, f3, f4]
  have c1 : ((k : ℤ) / 1000 / 60 / 60).toNat = k / 1000 / 60 / 60 := by omega
  have c2 : ((k : ℤ) / 1000 / 60 % 60).toNat = k / 1000 / 60 % 60 := by omega
  have c3 : ((k : ℤ) / 1000 % 60).toNat = k / 1000 % 60 := by omega
  have c4 : ((k : ℤ) % 1000).toNat = k % 1000 := by omega
  simp only [c1, c2, c3, c4]

/-! ## Subtitle document model -/

/-- One segment of the intermediate structured-transcript format:
id, start and end in seconds, and the text. -/
structure Segment where
  id : Nat
  start : ℚ
  «end» : ℚ
  text : List Char

/-- The intermediate structured transcript passed between srt_to_json,
the translation step and json_to_srt: full text, segments, language tag. -/
structure JsonData where
  text : List Char
  segments : List Segment
  language : List Char

/-! ## utils.json_to_srt -/

/-- The timestamp line of a block: start --> end. -/
def tsLineChars (seg : Segment) : List Char :=
  formatTimestampChars seg.start ++
    (' ' :: '-' :: '-' :: '>' :: ' ' :: formatTimestampChars seg.«end»)

/-- One SRT block as written by utils.json_to_srt for the i-th segment
(1-based index): index line, timestamp line, stripped text, blank line. -/
def srtBlock (i : Nat) (seg : Segment) : List Char :=
  natRepr i ++ ('\n' :: (tsLineChars seg ++ ('\n' :: (pyStrip seg.text ++ ['\n', '\n']))))

/-- The blocks written for consecutive segments, enumerating from i. -/
def srtBlocks : Nat → List Segment → List Char
  | _, [] => []
  | i, seg :: rest => srtBlock i seg ++ srtBlocks (i + 1) rest

/-- utils.json_to_srt: the text written to the output SRT file for a
document (the file-system write and its I/O errors are abstracted away;
the input is typed, so the dictionary-key validation of the source never
fires). Blocks are enumerated from 1 and each text is stripped. -/
def json_to_srt (data : JsonData) : List Char :=
  srtBlocks 1 data.segments

/-! ## utils.srt_to_json and the subtitle text parser -/

/-- A parsed subtitle of the external srt library: start and end times in
seconds and the (possibly multi-line) content. -/
structure RawSub where
  start : ℚ
  «end» : ℚ
  content : List Char

/-- Modelled from the spec: the timestamp syntax HH:MM:SS,mmm of the
bit-exact subtitle text format (zero-padded fields, comma separator);
the parsing is performed by the external srt library, which is not
repository code. Returns the time in seconds. -/
def parseTs (l : List Char) : Option ℚ :=
  match splitOnSep ':' l with
  | [hh, mm, rest] =>
    match splitOnSep ',' rest with
    | [ss, mss] =>
      match parseNat hh, parseNat mm, parseNat ss, parseNat mss with
      | some h, some m, some s, some ms =>
        some (((h : ℚ) * 3600 + (m : ℚ) * 60 + (s : ℚ)) + (ms : ℚ) / 1000)
      | _, _, _, _ => none
    | _ => none
  | _ => none

/-- Modelled from the spec: the timestamp line of a block. -/
def parseTsLine (l : List Char) : Option (ℚ × ℚ) :=
  match splitOnSep ' ' l with
  | [t1, arrow, t2] =>
    if arrow = ['-', '-', '>'] then
      match parseTs t1, parseTs t2 with
      | some a, some b => some (a, b)
      | _, _ => none
    else none
  | _ => none

/-- Modelled from the spec: one block of the subtitle text format — an
index line, a timestamp line, and at least one content line. -/
def parseBlock (b : List (List Char)) : Option RawSub :=
  match b with
  | idx :: ts :: content =>
    if content = [] then none
    else
      match parseNat idx, parseTsLine ts with
      | some _, some se => some ⟨se.1, se.2, joinWith '\n' content⟩
      | _, _ => none
  | _ => none

/-- Sequence a list of optional results, failing if any fails. -/
def listTraverse {α : Type} : List (Option α) → Option (List α)
  | [] => some []
  | none :: _ => none
  | some a :: rest => (listTraverse rest).map (fun l => a :: l)

/-- The segment records built by srt_to_json from the parsed subtitles,
enumerated from 0, with newlines collapsed to spaces and ends stripped. -/
def buildSegments : Nat → List RawSub → List Segment
  | _, [] => []
  | i, sub :: rest =>
    ⟨i, sub.start, sub.«end», pyStrip (replaceNL sub.content)⟩ :: buildSegments (i + 1) rest

/-- utils.srt_to_json applied to the content of an SRT file (the file
read and its I/O errors are abstracted away; parse errors and empty
files raise, modelled as none). Block parsing is modelled from the spec:
blocks are groups of lines separated by blank lines, tolerant of extra
blank lines, since the source delegates it to the external srt library.
Builds segments with ids 0..n-1 and the constant language tag en. -/
def srt_to_json (file : List Char) : Option JsonData :=
  if pyStrip file = [] then none
  else
    match listTraverse
        ((((splitOnSep ([] : List Char) (splitOnSep '\n' file))).filter
          (fun g => g ≠ [])).map parseBlock) with
    | none => none
    | some subs =>
      some ⟨pyStrip ((subs.map (fun sub => pyStrip (replaceNL sub.content) ++ [' '])).flatten),
            buildSegments 0 subs,
            'e' :: 'n' :: []⟩

/-! ## Round-trip lemmas for the timestamp syntax -/

theorem mem_padZero_natRepr {c : Char} {w n : Nat}
    (h : c ∈ padZero w (natRepr n)) : c.isDigit = true := by
  unfold padZero at h
  rcases List.mem_append.mp h with h | h
  · rw [List.eq_of_mem_replicate h]; decide
  · exact natRepr_all_digits n c h

theorem splitOnSep_not_mem {α : Type} [DecidableEq α] (sep : α) (l : List α) :
    ∀ g ∈ splitOnSep sep l, sep ∉ g := by
  induction l with
  | nil => intro g hg; simp [splitOnSep] at hg; simp [hg]
  | cons x xs ih =>
    intro g hg
    simp only [splitOnSep] at hg
    by_cases hx : x = sep
    · rw [if_pos hx] at hg
      rcases List.mem_cons.mp hg with h | h
      · simp [h]
      · exact ih g h
    · rw [if_neg hx] at hg
      cases hs : splitOnSep sep xs with
      | nil => exact absurd hs (splitOnSep_ne_nil sep xs)
      | cons gg gs =>
        rw [hs] at hg
        rcases List.mem_cons.mp hg with h | h
        · subst h
          intro hmem
          rcases List.mem_cons.mp hmem with h | h
          · exact hx h.symm
          · exact ih gg (hs ▸ List.mem_cons_self gg gs) h
        · exact ih g (hs ▸ List.mem_cons_of_mem gg h)

theorem mem_formatTimestampChars {c : Char} {q : ℚ}
    (h : c ∈ formatTimestampChars q) : c.isDigit = true ∨ c = ':' ∨ c = ',' := by
  unfold formatTimestampChars at h
  simp only [List.mem_append, List.mem_cons] at h
  rcases h with h | h | h | h | h | h | h
  · exact Or.inl (mem_padZero_natRepr h)
  · exact Or.inr (Or.inl h)
  · exact Or.inl (mem_padZero_natRepr h)
  · exact Or.inr (Or.inl h)
  · exact Or.inl (mem_padZero_natRepr h)
  · exact Or.inr (Or.inr h)
  · exact Or.inl (mem_padZero_natRepr h)

/-- Parsing the rendered timestamp of any time whose millisecond value is
the natural number k recovers exactly k/1000 seconds. -/
theorem parseTs_formatTimestampChars (q : ℚ) (k : ℕ) (h : q * 1000 = (k : ℚ)) :
    parseTs (formatTimestampChars q) = some q := by
  rw [formatTimestampChars_eq q k h]
  have hnc : ∀ (w n : Nat), ':' ∉ padZero w (natRepr n) := by
    intro w n hmem
    have := mem_padZero_natRepr hmem
    exact absurd this (by decide)
  have hncomma : ∀ (w n : Nat), ',' ∉ padZero w (natRepr n) := by
    intro w n hmem
    have := mem_padZero_natRepr hmem
    exact absurd this (by decide)
  have hsplit1 : splitOnSep ':'
      (padZero 2 (natRepr (k / 1000 / 60 / 60)) ++
        ':' :: (padZero 2 (natRepr (k / 1000 / 60 % 60)) ++
          ':' :: (padZero 2 (natRepr (k / 1000 % 60)) ++
            ',' :: padZero 3 (natRepr (k % 1000))))) =
      [padZero 2 (natRepr (k / 1000 / 60 / 60)),
       padZero 2 (natRepr (k / 1000 / 60 % 60)),
       padZero 2 (natRepr (k / 1000 % 60)) ++ ',' :: padZero 3 (natRepr (k % 1000))] := by
    rw [splitOnSep_append_sep (hnc 2 _), splitOnSep_append_sep (hnc 2 _)]
    rw [splitOnSep_sepFree (by
      intro hmem
      rcases List.mem_append.mp hmem with hm | hm
      · exact hnc 2 _ hm
      · rcases List.mem_cons.mp hm with hm | hm
        · exact absurd hm.symm (by decide)
        · exact hnc 3 _ hm)]
  have hsplit2 : splitOnSep ','
      (padZero 2 (natRepr (k / 1000 % 60)) ++ ',' :: padZero 3 (natRepr (k % 1000))) =
      [padZero 2 (natRepr (k / 1000 % 60)), padZero 3 (natRepr (k % 1000))] := by
    rw [splitOnSep_append_sep (hncomma 2 _)]
    rw [splitOnSep_sepFree (hncomma 3 _)]
  unfold parseTs
  rw [hsplit1]
  simp only [hsplit2, parseNat_padZero]
  congr 1
  have hq : q = (k : ℚ) / 1000 := by
    field_simp at h ⊢
    linarith [h]
  rw [hq]
  have e : (k / 1000 / 60 / 60 * 3600 + k / 1000 / 60 % 60 * 60 + k / 1000 % 60) * 1000
      + k % 1000 = k := by omega
  have e2 := congrArg (fun n : ℕ => (n : ℚ)) e
  push_cast at e2
  field_simp
  linarith [e2]

theorem formatTimestampChars_ne_nil (q : ℚ) : formatTimestampChars q ≠ [] := by
  unfold formatTimestampChars
  simp only [ne_eq, List.append_eq_nil, List.cons_ne_nil, and_false, not_false_iff]

theorem mem_formatTimestampChars_not_nl {c : Char} {q : ℚ}
    (h : c ∈ formatTimestampChars q) : c ≠ '\n' ∧ c ≠ ' ' := by
  rcases mem_formatTimestampChars h with hd | hd | hd
  · have := isDigit_not_special hd
    exact ⟨this.2.2.2.1, this.2.2.1⟩
  · subst hd; exact ⟨by decide, by decide⟩
  · subst hd; exact ⟨by decide, by decide⟩

/-- Parsing the rendered timestamp line recovers the two times. -/
theorem parseTsLine_tsLineChars (seg : Segment) (ks ke : ℕ)
    (hs : seg.start * 1000 = (ks : ℚ)) (he : seg.«end» * 1000 = (ke : ℚ)) :
    parseTsLine (tsLineChars seg) = some (seg.start, seg.«end») := by
  have hf1 : ' ' ∉ formatTimestampChars seg.start := fun hm =>
    (mem_formatTimestampChars_not_nl hm).2 rfl
  have harrow : (' ' : Char) ∉ ['-', '-', '>'] := by decide
  have h1 : tsLineChars seg =
      formatTimestampChars seg.start ++
        ' ' :: (['-', '-', '>'] ++ ' ' :: formatTimestampChars seg.«end») := by
    simp [tsLineChars]
  unfold parseTsLine
  rw [h1, splitOnSep_append_sep hf1, splitOnSep_append_sep harrow,
    splitOnSep_sepFree (fun hm => (mem_formatTimestampChars_not_nl hm).2 rfl)]
  simp [parseTs_formatTimestampChars seg.start ks hs,
    parseTs_formatTimestampChars seg.«end» ke he]

/-- The raw subtitle that parsing recovers from the written block of a
segment: the times and the stripped text. -/
def rawOf (seg : Segment) : RawSub :=
  ⟨seg.start, seg.«end», pyStrip seg.text⟩

/-- The group of lines a segment's block contributes to the parsed file. -/
def blockGroup (i : Nat) (seg : Segment) : List (List Char) :=
  natRepr i :: tsLineChars seg :: splitOnSep '\n' (pyStrip seg.text)

theorem parseBlock_blockGroup (i : Nat) (seg : Segment) (ks ke : ℕ)
    (hs : seg.start * 1000 = (ks : ℚ)) (he : seg.«end» * 1000 = (ke : ℚ)) :
    parseBlock (blockGroup i seg) = some (rawOf seg) := by
  unfold parseBlock blockGroup
  simp only [if_neg (splitOnSep_ne_nil '\n' (pyStrip seg.text))]
  rw [parseNat_natRepr, parseTsLine_tsLineChars seg ks ke hs he]
  simp [rawOf, joinWith_splitOnSep]

theorem splitOnSep_pyStrip_append (t : List Char) (l : List Char) :
    splitOnSep '\n' (pyStrip t ++ '\n' :: l) =
      splitOnSep '\n' (pyStrip t) ++ splitOnSep '\n' l := by
  conv_lhs => rw [← joinWith_splitOnSep '\n' (pyStrip t)]
  exact splitOnSep_joinWith_append (splitOnSep_ne_nil _ _) (splitOnSep_not_mem _ _) l

theorem natRepr_no_nl (n : Nat) : '\n' ∉ natRepr n := fun hm =>
  (isDigit_not_special (natRepr_all_digits n _ hm)).2.2.2.1 rfl

theorem tsLineChars_no_nl (seg : Segment) : '\n' ∉ tsLineChars seg := by
  intro hm
  unfold tsLineChars at hm
  rcases List.mem_append.mp hm with h | h
  · exact (mem_formatTimestampChars_not_nl h).1 rfl
  · rcases List.mem_cons.mp h with h | h
    · exact absurd h.symm (by decide)
    · rcases List.mem_cons.mp h with h | h
      · exact absurd h.symm (by decide)
      · rcases List.mem_cons.mp h with h | h
        · exact absurd h.symm (by decide)
        · rcases List.mem_cons.mp h with h | h
          · exact absurd h.symm (by decide)
          · rcases List.mem_cons.mp h with h | h
            · exact absurd h.symm (by decide)
            · exact (mem_formatTimestampChars_not_nl h).1 rfl

/-- The lines of one written block followed by any tail. -/
theorem lines_srtBlock (i : Nat) (seg : Segment) (rest : List Char) :
    splitOnSep '\n' (srtBlock i seg ++ rest) =
      natRepr i :: tsLineChars seg ::
        (splitOnSep '\n' (pyStrip seg.text) ++ [] :: splitOnSep '\n' rest) := by
  have h1 : srtBlock i seg ++ rest =
      natRepr i ++ '\n' ::
        (tsLineChars seg ++ '\n' :: (pyStrip seg.text ++ '\n' :: ('\n' :: rest))) := by
    simp [srtBlock, List.append_assoc]
  rw [h1, splitOnSep_append_sep (natRepr_no_nl i),
    splitOnSep_append_sep (tsLineChars_no_nl seg),
    splitOnSep_pyStrip_append, splitOnSep_cons_sep]

/-- The groups of lines contributed by consecutive segments from index i. -/
def groupsFrom : Nat → List Segment → List (List (List Char))
  | _, [] => []
  | i, seg :: rest => blockGroup i seg :: groupsFrom (i + 1) rest

theorem tsLineChars_ne_nil (seg : Segment) : tsLineChars seg ≠ [] := by
  unfold tsLineChars
  simp

theorem groups_srtBlocks (segs : List Segment)
    (hT : ∀ seg ∈ segs, ∀ l ∈ splitOnSep '\n' (pyStrip seg.text), l ≠ []) :
    ∀ i, (splitOnSep ([] : List Char) (splitOnSep '\n' (srtBlocks i segs))).filter
        (fun g => g ≠ []) = groupsFrom i segs := by
  induction segs with
  | nil => intro i; rfl
  | cons s t ih =>
    intro i
    have hstep : srtBlocks i (s :: t) = srtBlock i s ++ srtBlocks (i + 1) t := rfl
    rw [hstep, lines_srtBlock]
    have hshape : natRepr i :: tsLineChars s ::
        (splitOnSep '\n' (pyStrip s.text) ++ [] :: splitOnSep '\n' (srtBlocks (i + 1) t)) =
        blockGroup i s ++ ([] :: splitOnSep '\n' (srtBlocks (i + 1) t)) := by
      simp [blockGroup]
    have hnomem : ([] : List Char) ∉ blockGroup i s := by
      intro hm
      unfold blockGroup at hm
      rcases List.mem_cons.mp hm with h | h
      · exact natRepr_ne_nil i h.symm
      · rcases List.mem_cons.mp h with h | h
        · exact tsLineChars_ne_nil s h.symm
        · exact hT s (List.mem_cons_self s t) [] h rfl
    rw [hshape, splitOnSep_append_sep hnomem]
    rw [List.filter_cons_of_pos (by simp [blockGroup])]
    rw [ih (fun seg hseg => hT seg (List.mem_cons_of_mem s hseg)) (i + 1)]
    rfl

theorem traverse_groupsFrom (segs : List Segment)
    (htimes : ∀ seg ∈ segs,
      (∃ ks : ℕ, seg.start * 1000 = (ks : ℚ)) ∧ (∃ ke : ℕ, seg.«end» * 1000 = (ke : ℚ))) :
    ∀ i, listTraverse ((groupsFrom i segs).map parseBlock) = some (segs.map rawOf) := by
  induction segs with
  | nil => intro i; rfl
  | cons s t ih =>
    intro i
    obtain ⟨⟨ks, hks⟩, ⟨ke, hke⟩⟩ := htimes s (List.mem_cons_self s t)
    have h1 : (groupsFrom i (s :: t)).map parseBlock =
        parseBlock (blockGroup i s) :: (groupsFrom (i + 1) t).map parseBlock := rfl
    rw [h1, parseBlock_blockGroup i s ks ke hks hke]
    show (listTraverse ((groupsFrom (i + 1) t).map parseBlock)).map (fun l => rawOf s :: l) =
      some ((s :: t).map rawOf)
    rw [ih (fun seg hseg => htimes seg (List.mem_cons_of_mem s hseg)) (i + 1)]
    rfl

theorem srtBlocks_cons_head (s : Segment) (t : List Segment) :
    srtBlocks 1 (s :: t) = '1' :: (natRepr 1).tail ++
      ('\n' :: (tsLineChars s ++ ('\n' :: (pyStrip s.text ++ ['\n', '\n'])))
        ++ srtBlocks 2 t) := by
  have h1 : natRepr 1 = ['1'] := by decide
  show srtBlock 1 s ++ srtBlocks 2 t = _
  rw [srtBlock, h1]
  simp

/-- The full round trip: writing a document with json_to_srt and reading
it back with srt_to_json succeeds and yields the parsed subtitles of the
original segments, for any nonempty document whose times are whole
numbers of milliseconds and whose stripped texts have no empty line. -/
theorem srt_to_json_json_to_srt (d : JsonData) (hne : d.segments ≠ [])
    (htimes : ∀ seg ∈ d.segments,
      (∃ ks : ℕ, seg.start * 1000 = (ks : ℚ)) ∧ (∃ ke : ℕ, seg.«end» * 1000 = (ke : ℚ)))
    (htext : ∀ seg ∈ d.segments, ∀ l ∈ splitOnSep '\n' (pyStrip seg.text), l ≠ []) :
    srt_to_json (json_to_srt d) =
      some ⟨pyStrip (((d.segments.map rawOf).map
              (fun sub => pyStrip (replaceNL sub.content) ++ [' '])).flatten),
            buildSegments 0 (d.segments.map rawOf),
            'e' :: 'n' :: []⟩ := by
  obtain ⟨s, t, hst⟩ : ∃ s t, d.segments = s :: t := by
    cases h : d.segments with
    | nil => exact absurd h hne
    | cons s t => exact ⟨s, t, rfl⟩
  unfold srt_to_json json_to_srt
  have hmem1 : '1' ∈ srtBlocks 1 d.segments := by
    rw [hst, srtBlocks_cons_head]
    exact List.mem_cons_self _ _
  rw [if_neg (pyStrip_ne_nil hmem1 (by decide))]
  rw [groups_srtBlocks d.segments htext 1]
  rw [traverse_groupsFrom d.segments htimes 1]

theorem buildSegments_length : ∀ (i : Nat) (subs : List RawSub),
    (buildSegments i subs).length = subs.length
  | _, [] => rfl
  | i, _ :: rest => by
    simp [buildSegments, buildSegments_length (i + 1) rest]

theorem buildSegments_get : ∀ (k : Nat) (subs : List RawSub) (j : Nat)
    (h : j < (buildSegments k subs).length) (h2 : j < subs.length),
    (buildSegments k subs).get ⟨j, h⟩ =
      ⟨k + j, (subs.get ⟨j, h2⟩).start, (subs.get ⟨j, h2⟩).«end»,
        pyStrip (replaceNL (subs.get ⟨j, h2⟩).content)⟩ := by
  intro k subs
  induction subs generalizing k with
  | nil => intro j h h2; exact absurd h2 (by simp)
  | cons sub rest ih =>
    intro j h h2
    match j with
    | 0 => simp [buildSegments]
    | j + 1 =>
      have hr : j < (buildSegments (k + 1) rest).length := by
        simpa [buildSegments] using h
      have hr2 : j < rest.length := by simpa using h2
      have := ih (k + 1) j hr hr2
      simp only [buildSegments, List.get_cons_succ]
      rw [this]
      congr 1
      omega

/-- C8 (amended): for every nonempty subtitle document whose segments
satisfy 0 <= start <= end with start and end whole numbers of
milliseconds, and whose stripped texts are nonempty with no empty line,
the round trip json_to_srt followed by srt_to_json succeeds and
preserves the segment count, the segment order, each segment's start and
end times exactly, and each segment's text modulo collapsing internal
newlines to spaces and stripping leading and trailing whitespace. -/
theorem json_srt_roundtrip_preserves (d : JsonData)
    (_horder : ∀ seg ∈ d.segments, 0 ≤ seg.start ∧ seg.start ≤ seg.«end»)
    (hne : d.segments ≠ [])
    (htimes : ∀ seg ∈ d.segments,
      (∃ ks : ℕ, seg.start * 1000 = (ks : ℚ)) ∧ (∃ ke : ℕ, seg.«end» * 1000 = (ke : ℚ)))
    (htext : ∀ seg ∈ d.segments, ∀ l ∈ splitOnSep '\n' (pyStrip seg.text), l ≠ []) :
    ∃ d2, srt_to_json (json_to_srt d) = some d2 ∧
      d2.segments.length = d.segments.length ∧
      ∀ i (h1 : i < d.segments.length) (h2 : i < d2.segments.length),
        (d2.segments.get ⟨i, h2⟩).start = (d.segments.get ⟨i, h1⟩).start ∧
        (d2.segments.get ⟨i, h2⟩).«end» = (d.segments.get ⟨i, h1⟩).«end» ∧
        (d2.segments.get ⟨i, h2⟩).text =
          pyStrip (replaceNL (pyStrip ((d.segments.get ⟨i, h1⟩).text))) := by
  refine ⟨_, srt_to_json_json_to_srt d hne htimes htext, ?_, ?_⟩
  · simp [buildSegments_length]
  · intro i h1 h2
    have hmap : i < (d.segments.map rawOf).length := by simpa using h1
    rw [buildSegments_get 0 (d.segments.map rawOf) i (by simpa [buildSegments_length] using h2) hmap]
    have hget : (d.segments.map rawOf).get ⟨i, hmap⟩ = rawOf (d.segments.get ⟨i, h1⟩) := by
      simp [List.get_eq_getElem, List.getElem_map]
    rw [hget]
    exact ⟨rfl, rfl, rfl⟩

/-- The concrete document refuting claim C8 as stated: a single segment
with valid times whose text carries leading and trailing spaces. -/
def docCex : JsonData :=
  ⟨[], [⟨0, (0 : ℚ), (0 : ℚ), [' ', 'x', ' ']⟩], ['e', 'n']⟩

/-- C8 counterexample: the round trip rewrites the text " x " to "x"
although it contains no internal newline, so text content is not
preserved modulo collapsing internal newlines to spaces. -/
theorem json_srt_roundtrip_strips_text :
    (srt_to_json (json_to_srt docCex)).map (fun d2 => d2.segments.map Segment.text) =
      some [['x']] ∧
    docCex.segments.map Segment.text = [[' ', 'x', ' ']] ∧
    replaceNL [' ', 'x', ' '] = [' ', 'x', ' '] ∧
    ([' ', 'x', ' '] : List Char) ≠ ['x'] := by
  have h := srt_to_json_json_to_srt docCex (by simp [docCex])
    (by
      intro seg hseg
      simp only [docCex, List.mem_singleton] at hseg
      subst hseg
      exact ⟨⟨0, by norm_num⟩, ⟨0, by norm_num⟩⟩)
    (by
      intro seg hseg
      simp only [docCex, List.mem_singleton] at hseg
      subst hseg
      decide)
  rw [h]
  exact ⟨by decide, by decide, by decide, by decide⟩

/-- A concrete well-formed document exercising the round trip, with an
internal newline in its text. -/
def docWit : JsonData :=
  ⟨[], [⟨0, (0 : ℚ), (0 : ℚ), ['h', 'i', '\n', 'y', 'o']⟩], ['e', 'n']⟩

theorem json_srt_roundtrip_preserves_witness :
    ∃ d2, srt_to_json (json_to_srt docWit) = some d2 ∧
      d2.segments.length = docWit.segments.length := by
  obtain ⟨d2, h1, h2, _⟩ := json_srt_roundtrip_preserves docWit
    (by
      intro seg hseg
      simp only [docWit, List.mem_singleton] at hseg
      subst hseg
      exact ⟨le_refl 0, le_refl 0⟩)
    (by simp [docWit])
    (by
      intro seg hseg
      simp only [docWit, List.mem_singleton] at hseg
      subst hseg
      exact ⟨⟨0, by simp⟩, ⟨0, by simp⟩⟩)
    (by
      intro seg hseg
      simp only [docWit, List.mem_singleton] at hseg
      subst hseg
      decide)
  exact ⟨d2, h1, h2⟩

/-- C10: for every subtitle file that srt_to_json parses successfully,
the resulting document's language tag is the constant en regardless of
the file's actual language, and its segments carry consecutive integer
ids 0..n-1 in file order. -/
theorem srt_to_json_language_en_ids (file : List Char) (d : JsonData)
    (h : srt_to_json file = some d) :
    d.language = ['e', 'n'] ∧
      ∀ i (hi : i < d.segments.length), (d.segments.get ⟨i, hi⟩).id = i := by
  unfold srt_to_json at h
  by_cases hs : pyStrip file = []
  · rw [if_pos hs] at h
    exact absurd h (by simp)
  · rw [if_neg hs] at h
    cases ht : listTraverse
        ((((splitOnSep ([] : List Char) (splitOnSep '\n' file))).filter
          (fun g => g ≠ [])).map parseBlock) with
    | none => rw [ht] at h; exact absurd h (by simp)
    | some subs =>
      rw [ht] at h
      have hd : d = ⟨pyStrip ((subs.map
          (fun sub => pyStrip (replaceNL sub.content) ++ [' '])).flatten),
          buildSegments 0 subs, 'e' :: 'n' :: []⟩ := by
        injection h with h2
        exact h2.symm
      subst hd
      refine ⟨rfl, ?_⟩
      intro i hi
      have hi2 : i < subs.length := by
        simpa [buildSegments_length] using hi
      rw [buildSegments_get 0 subs i hi hi2]
      simp

/-- A concrete well-formed subtitle file. -/
def fileWit : List Char := "1\n00:00:00,000 --> 00:00:01,000\nHi\n\n".toList

theorem srt_to_json_language_en_ids_witness :
    ∃ d, srt_to_json fileWit = some d ∧ d.language = ['e', 'n'] ∧
      ∀ i (hi : i < d.segments.length), (d.segments.get ⟨i, hi⟩).id = i := by
  obtain ⟨d, hd⟩ := Option.isSome_iff_exists.mp
    (by decide : (srt_to_json fileWit).isSome = true)
  obtain ⟨hlang, hids⟩ := srt_to_json_language_en_ids fileWit d hd
  exact ⟨d, hd, hlang, hids⟩

/-! ## Batch Translator (translation loop of cli.process_single_video) -/

/-- The chunk list texts[i:i+max_items] for i in range(0, n, max_items)
from cli.py line 206. The first argument is recursion fuel; any fuel at
least the list length computes the chunks for any chunk size >= 1. -/
def sublistsAux {α : Type} : Nat → Nat → List α → List (List α)
  | 0, _, _ => []
  | _ + 1, _, [] => []
  | f + 1, max_items, x :: xs =>
    (x :: xs).take max_items :: sublistsAux f max_items ((x :: xs).drop max_items)

/-- The chunking of the texts to translate into groups of at most
max_items = 150 items. -/
def sublists {α : Type} (l : List α) : List (List α) :=
  sublistsAux l.length 150 l

theorem sublistsAux_shape {α : Type} : ∀ (fuel : Nat) (k : Nat) (l : List α),
    l.length ≤ fuel → 1 ≤ k →
    (∀ c ∈ sublistsAux fuel k l, c.length ≤ k ∧ c ≠ []) ∧
    (sublistsAux fuel k l).flatten = l := by
  intro fuel
  induction fuel with
  | zero =>
    intro k l hl _
    have hnil : l = [] := List.eq_nil_of_length_eq_zero (by omega)
    subst hnil
    exact ⟨by simp [sublistsAux], rfl⟩
  | succ f ih =>
    intro k l hl hk
    cases l with
    | nil => exact ⟨by simp [sublistsAux], rfl⟩
    | cons x xs =>
      have hlength : ((x :: xs).drop k).length = xs.length + 1 - k := by
        simp [List.length_drop]
      have hl2 : xs.length + 1 ≤ f + 1 := by simpa using hl
      have hfuel2 : ((x :: xs).drop k).length ≤ f := by omega
      obtain ⟨ihmem, ihflat⟩ := ih k ((x :: xs).drop k) hfuel2 hk
      simp only [sublistsAux]
      constructor
      · intro c hc
        rcases List.mem_cons.mp hc with hc | hc
        · subst hc
          refine ⟨by simp, ?_⟩
          intro htake
          rw [List.take_eq_nil_iff] at htake
          rcases htake with h | h <;>
            first
              | omega
              | simp at h
        · exact ihmem c hc
      · simp only [List.flatten_cons, ihflat]
        exact List.take_append_drop k (x :: xs)

theorem sublistsAux_count : ∀ (fuel : Nat) (l : List (List Char)),
    l.length ≤ fuel →
    (sublistsAux fuel 150 l).length = (l.length + 149) / 150 := by
  intro fuel
  induction fuel with
  | zero =>
    intro l hl
    have hnil : l = [] := List.eq_nil_of_length_eq_zero (by omega)
    subst hnil
    rfl
  | succ f ih =>
    intro l hl
    cases l with
    | nil => rfl
    | cons x xs =>
      have hlength : ((x :: xs).drop 150).length = xs.length + 1 - 150 := by
        simp [List.length_drop]
      have hl2 : xs.length + 1 ≤ f + 1 := by simpa using hl
      have hfuel2 : ((x :: xs).drop 150).length ≤ f := by omega
      have hrec := ih ((x :: xs).drop 150) hfuel2
      rw [hlength] at hrec
      simp only [sublistsAux, List.length_cons, hrec]
      omega

/-- The translation loop of process_single_video (cli.py lines 209-215):
one collaborator call per chunk in sequence, stopping at the first chunk
whose result is None or empty (Python falsy, cli.py line 212); returns
the concatenated results and the number of collaborator calls made. -/
def translateChunksRun {α : Type} (translate : List α → Option (List α)) :
    List (List α) → Option (List α) × Nat
  | [] => (some [], 0)
  | c :: cs =>
    match translate c with
    | none => (none, 1)
    | some [] => (none, 1)
    | some (r :: rs) =>
      match translateChunksRun translate cs with
      | (res, n) => (res.map (fun l => (r :: rs) ++ l), n + 1)

/-- The whole translation stage: chunking, the per-chunk loop, and the
final emptiness check on final_results (cli.py lines 205-219). -/
def translateAll {α : Type} (translate : List α → Option (List α))
    (texts : List α) : Option (List α) :=
  match translateChunksRun translate (sublists texts) with
  | (none, _) => none
  | (some [], _) => none
  | (some (fr :: frs), _) => some (fr :: frs)

theorem translateChunksRun_success {α : Type}
    (translate : List α → Option (List α)) (tr : α → α) :
    ∀ chunks : List (List α), (∀ c ∈ chunks, c ≠ []) →
    (∀ c ∈ chunks, translate c = some (c.map tr)) →
    translateChunksRun translate chunks = (some (chunks.flatten.map tr), chunks.length) := by
  intro chunks
  induction chunks with
  | nil => intro _ _; rfl
  | cons c cs ih =>
    intro hne hc
    have h1 : translate c = some (c.map tr) := hc c (List.mem_cons_self c cs)
    obtain ⟨r, rs, hrr⟩ : ∃ r rs, c.map tr = r :: rs := by
      cases hm : c.map tr with
      | nil =>
        rw [List.map_eq_nil_iff] at hm
        exact absurd hm (hne c (List.mem_cons_self c cs))
      | cons r rs => exact ⟨r, rs, rfl⟩
    have hrec := ih (fun x hx => hne x (List.mem_cons_of_mem c hx))
      (fun x hx => hc x (List.mem_cons_of_mem c hx))
    simp only [translateChunksRun, h1, hrr, hrec]
    rw [← hrr]
    simp [List.map_append]

theorem translateChunksRun_failure {α : Type}
    (translate : List α → Option (List α)) :
    ∀ chunks : List (List α),
    (∃ c ∈ chunks, translate c = none ∨ translate c = some []) →
    (translateChunksRun translate chunks).1 = none := by
  intro chunks
  induction chunks with
  | nil => intro h; simp at h
  | cons c cs ih =>
    intro h
    obtain ⟨cf, hcf, hfail⟩ := h
    cases ht : translate c with
    | none => simp [translateChunksRun, ht]
    | some r =>
      cases r with
      | nil => simp [translateChunksRun, ht]
      | cons r0 rs =>
        have hrec : (translateChunksRun translate cs).1 = none := by
          apply ih
          rcases List.mem_cons.mp hcf with hcc | hcc
          · subst hcc
            rcases hfail with hf | hf
            · exact absurd (ht.symm.trans hf) (by simp)
            · rw [ht] at hf
              injection hf with hf
              exact absurd hf (by simp)
          · exact ⟨cf, hcc, hfail⟩
        simp only [translateChunksRun, ht]
        cases hrun : translateChunksRun translate cs with
        | mk res n =>
          rw [hrun] at hrec
          simp only at hrec
          subst hrec
          rfl

/-! ## Job Pipeline (cli.process_single_video) -/

/-- The in-place positional update of segment texts with translations
(cli.py lines 221-222): Python zip pairs positionally and stops at the
shorter list, so segments beyond the translator output keep their text
and extra translated texts are dropped. -/
def applyTranslations (segments : List Segment) (final_results : List (List Char)) :
    List Segment :=
  ((segments.zip final_results).map fun p => { p.1 with text := p.2 }) ++
    segments.drop final_results.length

/-- cli.process_single_video as a function of its collaborators: the
video path and target language from the configuration, the detected
language and the segment list read back from the written SRT file
(transcription, whisper SRT writing and srt_to_json are upstream of the
translate stage), the per-chunk translation call, and the success of the
mux step. I/O failures outside these collaborators are not modelled.
Returns the Python return value and the ordered events sent over the
job's pipe: stage numbers 1-4 and -1 on failure, matching the source's
current_step increments and exception handlers. -/
def process_single_video (video_path : String) (output_language : String)
    (detected_language : String) (json_segments : List Segment)
    (translate : List (List Char) → Option (List (List Char)))
    (mux_ok : Bool) : Bool × List (String × Int) :=
  if detected_language = output_language then
    (false, [(video_path, 1), (video_path, -1)])
  else
    match translateAll translate (json_segments.map (fun seg => pyLstrip seg.text)) with
    | none => (false, [(video_path, 1), (video_path, 2), (video_path, -1)])
    | some _ =>
      if mux_ok then
        (true, [(video_path, 1), (video_path, 2), (video_path, 3), (video_path, 4)])
      else
        (false, [(video_path, 1), (video_path, 2), (video_path, 3), (video_path, -1)])

/-! ## Job Dispatcher sizing (cli.process_videos_concurrently) -/

/-- The worker sizing of cli.process_videos_concurrently lines 284-289:
nro_workers starts at 1 and, when the requested worker count is truthy,
becomes min(videos, cpu_count - 1) if workers >= cpu_count and
min(videos, workers) otherwise. -/
def nro_workers (videos workers cpu_count : Nat) : Nat :=
  if workers ≠ 0 then
    if cpu_count ≤ workers then min videos (cpu_count - 1)
    else min videos workers
  else 1

/-! ## Progress Aggregator (cli.process_videos_concurrently) -/

/-- The aggregate run summary returned by process_videos_concurrently. -/
structure Summary where
  total_videos : Nat
  success_videos : Nat
  failed_videos : Nat

/-- The aggregator's mutable state: the completed_workers counters, the
failure and success tallies, and whether each job's visible display was
set to the Error state. Counters are modelled as a total function on job
identifiers; only identifiers in the video list are meaningful. -/
structure AggState where
  completed_workers : String → Nat
  failed_videos : Nat
  success_videos : Nat
  errored : String → Bool

/-- The aggregator's initial state: all counters 0 (cli.py line 362). -/
def initAggState : AggState :=
  ⟨fun _ => 0, 0, 0, fun _ => false⟩

/-- One received event of the aggregator loop (cli.py lines 366-441).
The fatal sentinel API_KEY_ERROR sets every tracked job's display to
Error, caps every counter at 4 and adds the full job count to the
failure tally; afterwards, as in the source, the event's identifier is
still looked up among the trackers: a known job with stage -1 is marked
failed-terminal and counted, a known job with stage >= 4 is marked
terminal and counted as a success, and stages 1-3 only update the
displayed phase, leaving the counter unchanged. -/
def recvEvent (videos : List String) (st : AggState) (ev : String × Int) : AggState :=
  let st1 : AggState :=
    if ev.1 = "API_KEY_ERROR" then
      { completed_workers := fun _ => 4,
        failed_videos := st.failed_videos + videos.length,
        success_videos := st.success_videos,
        errored := fun _ => true }
    else st
  if ev.1 ∈ videos then
    if ev.2 = -1 then
      { completed_workers := fun j => if j = ev.1 then 4 else st1.completed_workers j,
        failed_videos := st1.failed_videos + 1,
        success_videos := st1.success_videos,
        errored := fun j => if j = ev.1 then true else st1.errored j }
    else if 4 ≤ ev.2 then
      { completed_workers := fun j => if j = ev.1 then 4 else st1.completed_workers j,
        failed_videos := st1.failed_videos,
        success_videos := st1.success_videos + 1,
        errored := st1.errored }
    else st1
  else st1

/-- The aggregator state after receiving a sequence of events. -/
def runAgg (videos : List String) (events : List (String × Int)) : AggState :=
  events.foldl (recvEvent videos) initAggState

/-- The sum of the counters over the tracked jobs. -/
def sumCompleted (videos : List String) (st : AggState) : Nat :=
  (videos.map st.completed_workers).sum

/-- The while condition of the aggregator loop (cli.py line 364). -/
def loopContinues (videos : List String) (st : AggState) : Bool :=
  sumCompleted videos st < videos.length * 4

/-- The summary built after the loop (cli.py lines 448-454). -/
def summaryOf (videos : List String) (st : AggState) : Summary :=
  ⟨videos.length, st.success_videos, st.failed_videos⟩

/-! ## Claim theorems: dispatcher, pipeline, translator -/

/-- C1 counterexample: with 10 videos, 8 requested workers and host
parallelism 1, the computed worker count is min(10, 1-1) = 0, so the
computed count is not always >= 1 for host parallelism >= 1. -/
theorem nro_workers_can_be_zero :
    nro_workers 10 8 1 = 0 ∧ ¬ 1 ≤ nro_workers 10 8 1 := by decide

/-- C1 (amended): for every video count v >= 1, requested worker count
r >= 1 and host parallelism h >= 1, the dispatcher's effective worker
count equals min(v, r) when r < h and min(v, h - 1) when r >= h; it is
>= 1 whenever h >= 2 (when h = 1 and r >= h it is min(v, 0) = 0); in
particular with v = 10 and h = 4, r = 2 yields 2 workers and r = 8
yields 3 workers. -/
theorem nro_workers_spec (v r h : Nat) (hv : 1 ≤ v) (hr : 1 ≤ r) (_hh : 1 ≤ h) :
    nro_workers v r h = (if r < h then min v r else min v (h - 1)) ∧
    (2 ≤ h → 1 ≤ nro_workers v r h) ∧
    nro_workers 10 2 4 = 2 ∧ nro_workers 10 8 4 = 3 := by
  have hr0 : r ≠ 0 := by omega
  refine ⟨?_, ?_, by decide, by decide⟩
  · unfold nro_workers
    rw [if_pos hr0]
    by_cases hlt : r < h
    · rw [if_neg (by omega), if_pos hlt]
    · rw [if_pos (by omega), if_neg hlt]
  · intro h2
    unfold nro_workers
    rw [if_pos hr0]
    by_cases hle : h ≤ r
    · rw [if_pos hle]
      omega
    · rw [if_neg hle]
      omega

theorem nro_workers_spec_witness :
    nro_workers 10 2 4 = (if 2 < 4 then min 10 2 else min 10 (4 - 1)) ∧
    (2 ≤ 4 → 1 ≤ nro_workers 10 2 4) ∧
    nro_workers 10 2 4 = 2 ∧ nro_workers 10 8 4 = 3 :=
  nro_workers_spec 10 2 4 (by decide) (by decide) (by decide)

/-- C2 counterexample: with detected language equal to the target
language the pipeline emits the stage-1 event before the language check
fires, so the job does emit and reach stage 1, contrary to the claim
that it terminates at Init without reaching stage 1. -/
theorem same_language_emits_stage_one :
    process_single_video "v.mp4" "en" "en" [] (fun _ => none) true =
      (false, [("v.mp4", 1), ("v.mp4", -1)]) ∧
    ("v.mp4", (1 : Int)) ∈
      (process_single_video "v.mp4" "en" "en" [] (fun _ => none) true).2 := by
  refine ⟨rfl, ?_⟩
  decide

/-- C2 (amended): for every job whose detected language equals the
configured target language, the pipeline first emits stage 1 (the
transcription event is sent before the language check) and then fails
the job: it returns False with a failure event, and never emits stage 2
or any later stage. The source raises typer.Exit for this case, caught
by the generic exception handler; no dedicated SameLanguageFailure class
exists in the code. -/
theorem same_language_fails_job (video_path output_language : String)
    (json_segments : List Segment)
    (translate : List (List Char) → Option (List (List Char))) (mux_ok : Bool) :
    process_single_video video_path output_language output_language json_segments
      translate mux_ok = (false, [(video_path, 1), (video_path, -1)]) := by
  unfold process_single_video
  rw [if_pos rfl]

/-- C3: for any ordered list of N source texts, the Batch Translator
partitions it into consecutive chunks of at most 150 items whose
concatenation is the input, issues exactly ceil(N/150) = (N+149)/150
collaborator calls in sequence, and when every chunk succeeds the
concatenation of the chunk results is the pointwise translation of the
input, preserving the original order. -/
theorem batch_translator_spec (texts : List (List Char))
    (translate : List (List Char) → Option (List (List Char)))
    (tr : List Char → List Char)
    (hsucc : ∀ c ∈ sublists texts, translate c = some (c.map tr)) :
    (∀ c ∈ sublists texts, c.length ≤ 150 ∧ c ≠ []) ∧
    (sublists texts).flatten = texts ∧
    (sublists texts).length = (texts.length + 149) / 150 ∧
    translateChunksRun translate (sublists texts) =
      (some (texts.map tr), (texts.length + 149) / 150) := by
  obtain ⟨hmem, hflat⟩ := sublistsAux_shape texts.length 150 texts le_rfl (by omega)
  have hcount := sublistsAux_count texts.length texts le_rfl
  refine ⟨hmem, hflat, hcount, ?_⟩
  rw [translateChunksRun_success translate tr (sublists texts)
    (fun c hc => (hmem c hc).2) hsucc]
  rw [show (sublists texts).flatten = texts from hflat,
    show (sublists texts).length = (texts.length + 149) / 150 from hcount]

theorem batch_translator_spec_witness :
    (∀ c ∈ sublists [['a'], ['b']], c.length ≤ 150 ∧ c ≠ []) ∧
    (sublists [['a'], ['b']]).flatten = [['a'], ['b']] ∧
    (sublists [['a'], ['b']]).length = ([['a'], ['b']].length + 149) / 150 ∧
    translateChunksRun (fun c => some (c.map (fun t => t))) (sublists [['a'], ['b']]) =
      (some ([['a'], ['b']].map (fun t => t)), ([['a'], ['b']].length + 149) / 150) :=
  batch_translator_spec [['a'], ['b']] (fun c => some (c.map (fun t => t)))
    (fun t => t) (fun _ _ => rfl)

/-- A concrete segment used in witnesses. -/
def segW : Segment := ⟨0, 0, 0, ['h', 'i']⟩

/-- C4: if any one chunk's translation call fails (returns None or an
empty result), the whole translation stage fails regardless of the other
chunks: translateAll returns none — partial translations are discarded,
not returned — and the job stops, returning False with a failure event
right after stage 2. -/
theorem chunk_failure_fails_job (video_path output_language detected_language : String)
    (hlang : detected_language ≠ output_language)
    (json_segments : List Segment)
    (translate : List (List Char) → Option (List (List Char)))
    (mux_ok : Bool)
    (hfail : ∃ c ∈ sublists (json_segments.map (fun seg => pyLstrip seg.text)),
      translate c = none ∨ translate c = some []) :
    translateAll translate (json_segments.map (fun seg => pyLstrip seg.text)) = none ∧
    process_single_video video_path output_language detected_language json_segments
      translate mux_ok = (false, [(video_path, 1), (video_path, 2), (video_path, -1)]) := by
  have h1 : translateAll translate (json_segments.map (fun seg => pyLstrip seg.text)) = none := by
    unfold translateAll
    have hnone := translateChunksRun_failure translate
      (sublists (json_segments.map (fun seg => pyLstrip seg.text))) hfail
    cases hrun : translateChunksRun translate
        (sublists (json_segments.map (fun seg => pyLstrip seg.text))) with
    | mk res n =>
      rw [hrun] at hnone
      simp only at hnone
      subst hnone
      rfl
  refine ⟨h1, ?_⟩
  unfold process_single_video
  rw [if_neg hlang, h1]

theorem chunk_failure_fails_job_witness :
    translateAll (fun _ => none) ([segW].map (fun seg => pyLstrip seg.text)) = none ∧
    process_single_video "v.mp4" "en" "es" [segW] (fun _ => none) true =
      (false, [("v.mp4", 1), ("v.mp4", 2), ("v.mp4", -1)]) :=
  chunk_failure_fails_job "v.mp4" "en" "es" (by decide) [segW] (fun _ => none) true
    ⟨[['h', 'i']], by decide, Or.inl rfl⟩

theorem applyTranslations_nil_ts (segments : List Segment) :
    applyTranslations segments [] = segments := by
  simp [applyTranslations]

theorem get_congr_list {l l2 : List Segment} (hll : l = l2) (i : Nat)
    (h : i < l.length) :
    l.get ⟨i, h⟩ = l2.get ⟨i, hll ▸ h⟩ := by
  subst hll
  rfl

theorem applyTranslations_cons (s : Segment) (rest : List Segment)
    (t : List Char) (ts : List (List Char)) :
    applyTranslations (s :: rest) (t :: ts) =
      { s with text := t } :: applyTranslations rest ts := rfl

theorem applyTranslations_length (segments : List Segment) (ts : List (List Char)) :
    (applyTranslations segments ts).length = segments.length := by
  unfold applyTranslations
  simp only [List.length_append, List.length_map, List.length_zip, List.length_drop]
  omega

/-- C9: the positional update of segment texts preserves segment count
and order; position i receives the i-th translated text when i < k (the
translator output length) and keeps its original segment record
otherwise, with no error raised — so when k < n the pairing silently
truncates: the first k segments are replaced and the last n - k keep
their original text. -/
theorem applyTranslations_spec (segments : List Segment) (ts : List (List Char)) :
    (applyTranslations segments ts).length = segments.length ∧
    ∀ i (h : i < segments.length) (h2 : i < (applyTranslations segments ts).length),
      (applyTranslations segments ts).get ⟨i, h2⟩ =
        if hk : i < ts.length then
          { segments.get ⟨i, h⟩ with text := ts.get ⟨i, hk⟩ }
        else segments.get ⟨i, h⟩ := by
  refine ⟨applyTranslations_length segments ts, ?_⟩
  induction segments generalizing ts with
  | nil => intro i h _; exact absurd h (by simp)
  | cons s rest ih =>
    intro i h h2
    cases ts with
    | nil =>
      rw [dif_neg (by simp), get_congr_list (applyTranslations_nil_ts (s :: rest)) i h2]
    | cons t ts' =>
      simp only [applyTranslations_cons] at h2 ⊢
      match i with
      | 0 =>
        rw [dif_pos (by simp)]
        rfl
      | i + 1 =>
        have hr : i < rest.length := by simpa using h
        have hr2 : i < (applyTranslations rest ts').length := by
          simpa [applyTranslations_cons] using h2
        have := ih ts' i hr hr2
        simp only [List.get_cons_succ]
        rw [this]
        by_cases hk : i < ts'.length
        · rw [dif_pos hk, dif_pos (by simpa using hk)]
        · rw [dif_neg hk, dif_neg (by simpa using hk)]

/-- A second concrete segment used in witnesses. -/
def segW2 : Segment := ⟨1, 0, 0, ['y', 'o']⟩

theorem applyTranslations_spec_witness :
    (applyTranslations [segW, segW2] [['T']]).length = [segW, segW2].length ∧
    (applyTranslations [segW, segW2] [['T']]).get ⟨0, by decide⟩ =
      { [segW, segW2].get ⟨0, by decide⟩ with text := ['T'] } ∧
    (applyTranslations [segW, segW2] [['T']]).get ⟨1, by decide⟩ =
      [segW, segW2].get ⟨1, by decide⟩ := by
  obtain ⟨hlen, hget⟩ := applyTranslations_spec [segW, segW2] [['T']]
  refine ⟨hlen, ?_, ?_⟩
  · have h0 := hget 0 (by decide) (by decide)
    rw [dif_pos (by decide)] at h0
    exact h0
  · have h1 := hget 1 (by decide) (by decide)
    rw [dif_neg (by decide)] at h1
    exact h1

/-! ## Claim theorems: aggregator -/

theorem recvEvent_progress (videos : List String) (st : AggState) (e : String × Int)
    (h1 : e.1 ≠ "API_KEY_ERROR") (h2 : 1 ≤ e.2) (h3 : e.2 ≤ 3) :
    recvEvent videos st e = st := by
  unfold recvEvent
  rw [if_neg h1]
  by_cases hm : e.1 ∈ videos
  · rw [if_pos hm, if_neg (by omega), if_neg (by omega)]
  · rw [if_neg hm]

theorem foldl_progress (videos : List String) :
    ∀ (events : List (String × Int)) (st : AggState),
    (∀ e ∈ events, e.1 ≠ "API_KEY_ERROR" ∧ 1 ≤ e.2 ∧ e.2 ≤ 3) →
    events.foldl (recvEvent videos) st = st := by
  intro events
  induction events with
  | nil => intro st _; rfl
  | cons e es ih =>
    intro st hpre
    obtain ⟨he1, he2, he3⟩ := hpre e (List.mem_cons_self e es)
    rw [List.foldl_cons, recvEvent_progress videos st e he1 he2 he3]
    exact ih st (fun x hx => hpre x (List.mem_cons_of_mem e hx))

theorem sum_map_le_four : ∀ (videos : List String) (f : String → Nat),
    (∀ j ∈ videos, f j ≤ 4) → (videos.map f).sum ≤ videos.length * 4
  | [], _, _ => by simp
  | v :: vs, f, hb => by
    simp only [List.map_cons, List.sum_cons, List.length_cons]
    have hhead := hb v (List.mem_cons_self v vs)
    have htail := sum_map_le_four vs f (fun j hj => hb j (List.mem_cons_of_mem v hj))
    omega

/-- C5: when every event received before the fatal credential sentinel is
a normal progress event with stage between 1 and 3 — so jobs may have
reached stage 3 but none has terminated — receiving the sentinel sets
every job's counter to the cap of 4, marks every job's display as
failed, adds the full job count to the failure tally, makes the final
Summary report failed_videos equal to total_videos, and terminates the
polling loop. -/
theorem aggregator_sentinel_fails_all (videos : List String)
    (hnk : "API_KEY_ERROR" ∉ videos)
    (events : List (String × Int))
    (hpre : ∀ e ∈ events, e.1 ≠ "API_KEY_ERROR" ∧ 1 ≤ e.2 ∧ e.2 ≤ 3) :
    (∀ j, (runAgg videos (events ++ [("API_KEY_ERROR", -1)])).completed_workers j = 4) ∧
    (∀ j, (runAgg videos (events ++ [("API_KEY_ERROR", -1)])).errored j = true) ∧
    (runAgg videos (events ++ [("API_KEY_ERROR", -1)])).failed_videos = videos.length ∧
    (summaryOf videos (runAgg videos (events ++ [("API_KEY_ERROR", -1)]))).failed_videos =
      (summaryOf videos (runAgg videos (events ++ [("API_KEY_ERROR", -1)]))).total_videos ∧
    loopContinues videos (runAgg videos (events ++ [("API_KEY_ERROR", -1)])) = false := by
  have hrun : runAgg videos (events ++ [("API_KEY_ERROR", -1)]) =
      recvEvent videos initAggState ("API_KEY_ERROR", -1) := by
    unfold runAgg
    rw [List.foldl_append, foldl_progress videos events initAggState hpre]
    rfl
  have hfinal : recvEvent videos initAggState ("API_KEY_ERROR", -1) =
      ⟨fun _ => 4, videos.length, 0, fun _ => true⟩ := by
    unfold recvEvent initAggState
    rw [if_pos rfl, if_neg hnk]
    simp
  rw [hrun, hfinal]
  refine ⟨fun j => rfl, fun j => rfl, rfl, rfl, ?_⟩
  unfold loopContinues sumCompleted
  simp only [List.map_const]
  simp [List.sum_replicate, smul_eq_mul, Nat.mul_comm]

theorem aggregator_sentinel_fails_all_witness :
    (runAgg ["a", "b"] ([("a", 3)] ++ [("API_KEY_ERROR", -1)])).failed_videos = 2 ∧
    (runAgg ["a", "b"] ([("a", 3)] ++ [("API_KEY_ERROR", -1)])).completed_workers "a" = 4 ∧
    loopContinues ["a", "b"]
      (runAgg ["a", "b"] ([("a", 3)] ++ [("API_KEY_ERROR", -1)])) = false := by
  obtain ⟨h1, _, h3, _, h5⟩ := aggregator_sentinel_fails_all ["a", "b"] (by decide)
    [("a", 3)] (by decide)
  exact ⟨h3, h1 "a", h5⟩

theorem recvEvent_counters (videos : List String) (st : AggState) (e : String × Int)
    (hst : ∀ j, st.completed_workers j = 0 ∨ st.completed_workers j = 4) :
    ∀ j, (recvEvent videos st e).completed_workers j = 0 ∨
      (recvEvent videos st e).completed_workers j = 4 := by
  intro j
  unfold recvEvent
  dsimp only
  by_cases hs : e.1 = "API_KEY_ERROR"
  · rw [if_pos hs]
    by_cases hm : e.1 ∈ videos
    · rw [if_pos hm]
      by_cases h1 : e.2 = -1
      · rw [if_pos h1]
        dsimp only
        by_cases hj : j = e.1
        · rw [if_pos hj]; exact Or.inr rfl
        · rw [if_neg hj]; exact Or.inr rfl
      · rw [if_neg h1]
        by_cases h2 : 4 ≤ e.2
        · rw [if_pos h2]
          dsimp only
          by_cases hj : j = e.1
          · rw [if_pos hj]; exact Or.inr rfl
          · rw [if_neg hj]; exact Or.inr rfl
        · rw [if_neg h2]
          exact Or.inr rfl
    · rw [if_neg hm]
      exact Or.inr rfl
  · rw [if_neg hs]
    by_cases hm : e.1 ∈ videos
    · rw [if_pos hm]
      by_cases h1 : e.2 = -1
      · rw [if_pos h1]
        dsimp only
        by_cases hj : j = e.1
        · rw [if_pos hj]; exact Or.inr rfl
        · rw [if_neg hj]; exact hst j
      · rw [if_neg h1]
        by_cases h2 : 4 ≤ e.2
        · rw [if_pos h2]
          dsimp only
          by_cases hj : j = e.1
          · rw [if_pos hj]; exact Or.inr rfl
          · rw [if_neg hj]; exact hst j
        · rw [if_neg h2]
          exact hst j
    · rw [if_neg hm]
      exact hst j

theorem runAgg_counters (videos : List String) (events : List (String × Int)) :
    ∀ j, (runAgg videos events).completed_workers j = 0 ∨
      (runAgg videos events).completed_workers j = 4 := by
  unfold runAgg
  suffices h : ∀ (evs : List (String × Int)) (st : AggState),
      (∀ j, st.completed_workers j = 0 ∨ st.completed_workers j = 4) →
      ∀ j, (evs.foldl (recvEvent videos) st).completed_workers j = 0 ∨
        (evs.foldl (recvEvent videos) st).completed_workers j = 4 by
    exact h events initAggState (fun _ => Or.inl rfl)
  intro evs
  induction evs with
  | nil => intro st hst j; exact hst j
  | cons e es ih =>
    intro st hst j
    rw [List.foldl_cons]
    exact ih (recvEvent videos st e) (recvEvent_counters videos st e hst) j

theorem recvEvent_terminal (videos : List String) (st : AggState) (e : String × Int)
    (hm : e.1 ∈ videos) (ht : e.2 = -1 ∨ 4 ≤ e.2) :
    (recvEvent videos st e).completed_workers e.1 = 4 := by
  unfold recvEvent
  dsimp only
  rw [if_pos hm]
  by_cases h1 : e.2 = -1
  · rw [if_pos h1]
    dsimp only
    rw [if_pos rfl]
  · have h2 : 4 ≤ e.2 := by
      rcases ht with ht | ht
      · exact absurd ht h1
      · exact ht
    rw [if_neg h1, if_pos h2]
    dsimp only
    rw [if_pos rfl]

theorem recvEvent_sentinel (videos : List String) (st : AggState) (j : String) :
    (recvEvent videos st ("API_KEY_ERROR", -1)).completed_workers j = 4 := by
  unfold recvEvent
  dsimp only
  rw [if_pos rfl]
  by_cases hm : "API_KEY_ERROR" ∈ videos
  · rw [if_pos hm, if_pos rfl]
    dsimp only
    by_cases hj : j = "API_KEY_ERROR"
    · rw [if_pos hj]
    · rw [if_neg hj]
  · rw [if_neg hm]
    rw [if_pos rfl]

/-- C6: the aggregator's polling loop terminates exactly when the counter
sum reaches jobs * 4: every counter is only ever 0 or 4, hence stays
within 0..4; any event with stage -1 or stage >= 4 for a known job sets
that job's counter to 4; the fatal sentinel sets every counter to 4; and
the loop continues exactly while the counter sum is below jobs * 4,
so it stops exactly when the sum reaches jobs * 4. -/
theorem aggregator_termination (videos : List String) (events : List (String × Int)) :
    (∀ j, (runAgg videos events).completed_workers j ≤ 4) ∧
    (∀ (st : AggState) (e : String × Int), e.1 ∈ videos → (e.2 = -1 ∨ 4 ≤ e.2) →
      (recvEvent videos st e).completed_workers e.1 = 4) ∧
    (∀ (st : AggState) (j : String),
      (recvEvent videos st ("API_KEY_ERROR", -1)).completed_workers j = 4) ∧
    (loopContinues videos (runAgg videos events) = false ↔
      sumCompleted videos (runAgg videos events) = videos.length * 4) := by
  have hcts := runAgg_counters videos events
  refine ⟨?_, fun st e hm ht => recvEvent_terminal videos st e hm ht,
    fun st j => recvEvent_sentinel videos st j, ?_⟩
  · intro j
    rcases hcts j with h | h <;> omega
  · have hle : sumCompleted videos (runAgg videos events) ≤ videos.length * 4 :=
      sum_map_le_four videos _ (fun j _ => by rcases hcts j with h | h <;> omega)
    unfold loopContinues
    simp only [decide_eq_false_iff_not]
    omega

theorem aggregator_termination_witness :
    (recvEvent ["a"] initAggState ("a", -1)).completed_workers "a" = 4 ∧
    (recvEvent ["a"] initAggState ("API_KEY_ERROR", -1)).completed_workers "z" = 4 ∧
    (loopContinues ["a"] (runAgg ["a"] [("a", 4)]) = false ↔
      sumCompleted ["a"] (runAgg ["a"] [("a", 4)]) = ["a"].length * 4) := by
  obtain ⟨_, h2, h3, h4⟩ := aggregator_termination ["a"] [("a", 4)]
  exact ⟨h2 initAggState ("a", -1) (by decide) (Or.inl rfl),
    h3 initAggState "z", h4⟩

/-! ## Claim theorems: timestamp formatting -/

/-- C7: timestamp formatting satisfies format(0) = 00:00:00,000 and
format(3661.5) = 01:01:01,500; every negative numeric input raises a
range (value) error and every non-numeric input raises a type error. -/
theorem format_timestamp_spec :
    format_timestamp (PyVal.num 0) = Except.ok "00:00:00,000".toList ∧
    format_timestamp (PyVal.num 3661.5) = Except.ok "01:01:01,500".toList ∧
    (∀ q : ℚ, q < 0 → format_timestamp (PyVal.num q) = Except.error PyError.valueError) ∧
    (∀ v : PyVal, isNumeric v = false →
      format_timestamp v = Except.error PyError.typeError) := by
  refine ⟨?_, ?_, ?_, ?_⟩
  · have h0 : formatTimestampChars 0 = "00:00:00,000".toList := by
      rw [formatTimestampChars_eq 0 0 (by norm_num)]
      decide
    simp only [format_timestamp]
    rw [if_neg (lt_irrefl 0), h0]
  · have h1 : formatTimestampChars 3661.5 = "01:01:01,500".toList := by
      rw [formatTimestampChars_eq 3661.5 3661500 (by norm_num)]
      decide
    simp only [format_timestamp]
    rw [if_neg (by norm_num), h1]
  · intro q hq
    simp only [format_timestamp]
    rw [if_pos hq]
  · intro v hv
    cases v with
    | num q => simp [isNumeric] at hv
    | str s => rfl
    | pyNone => rfl
    | pyList es => rfl

theorem format_timestamp_spec_witness :
    format_timestamp (PyVal.num (-1)) = Except.error PyError.valueError ∧
    format_timestamp (PyVal.str ['x']) = Except.error PyError.typeError := by
  obtain ⟨_, _, h3, h4⟩ := format_timestamp_spec
  exact ⟨h3 (-1) (neg_lt_zero.mpr one_pos), h4 (PyVal.str ['x']) rfl⟩
